import Mathlib

/-!
Verification of the host-resolution / argument-parsing / picker / reconnect core
of the `oken` ssh front-end, as a shallow embedding in Lean.

Each `def` below is a direct translation of a function of the Rust sources
(`src/ssh.rs`, `src/main.rs`, `src/reconnect.rs`, `src/hosts.rs`,
`src/ssh_config.rs`, `src/picker.rs`); effectful parts (the filesystem, the
hash map, the terminal, the spawned client process) are made explicit as
function parameters or as explicit state.
-/

/-! ## Argument classification (src/ssh.rs) -/

/-- SSH flags that take a following argument value (`FLAGS_WITH_VALUES` in
`src/ssh.rs`). -/
def FLAGS_WITH_VALUES : List String :=
  ["-p", "-i", "-o", "-l", "-L", "-R", "-D", "-F", "-J", "-W", "-b", "-c", "-m", "-e", "-S", "-E",
   "-B", "-w", "-O"]

/-- Strip a `user@` part from a target token: `split_once('@')` keeping the
part after the first `@` (`src/ssh.rs`, `extract_target_host`). -/
def stripUser (arg : String) : String :=
  match arg.data.dropWhile (fun c => c ≠ '@') with
  | _ :: t => String.mk t
  | [] => arg

/-- Translation of `extract_target_host` (`src/ssh.rs` lines 58-82): scan the
argument vector left to right, skipping value-consuming flags together with
their following token and any other `-` token, and return the first
positional token with its user part stripped.  The Rust `skip_next` flag is
modelled by consuming the element following a value flag directly. -/
def extract_target_host : List String → Option String
  | [] => none
  | [arg] =>
    if FLAGS_WITH_VALUES.contains arg then none
    else if arg.data.head? = some '-' then none
    else some (stripUser arg)
  | arg :: x :: rest =>
    if FLAGS_WITH_VALUES.contains arg then extract_target_host rest
    else if arg.data.head? = some '-' then extract_target_host (x :: rest)
    else some (stripUser arg)

/-- Translation of `extract_target_host_full` (`src/ssh.rs` lines 86-103):
identical scan, returning the positional token unmodified. -/
def extract_target_host_full : List String → Option String
  | [] => none
  | [arg] =>
    if FLAGS_WITH_VALUES.contains arg then none
    else if arg.data.head? = some '-' then none
    else some arg
  | arg :: x :: rest =>
    if FLAGS_WITH_VALUES.contains arg then extract_target_host_full rest
    else if arg.data.head? = some '-' then extract_target_host_full (x :: rest)
    else some arg

/-! ## Keepalive injection (src/main.rs, `inject_keepalive`) -/

/-- Boolean substring test on character lists, modelling Rust
`str::contains(&str)`: the needle occurs (contiguously) somewhere in the
haystack. -/
def subListOf (needle : List Char) : List Char → Bool
  | [] => needle.isPrefixOf []
  | c :: t => needle.isPrefixOf (c :: t) || subListOf needle t

/-- `a.contains("ServerAliveInterval")` from `inject_keepalive`. -/
def containsSub (hay needle : String) : Bool :=
  subListOf needle.data hay.data

/-- The two option pairs prepended by `inject_keepalive` (`src/main.rs`
lines 170-175). -/
def keepaliveOpts (interval : Nat) : List String :=
  ["-o", "ServerAliveInterval=" ++ toString interval, "-o", "ServerAliveCountMax=3"]

/-- Translation of `inject_keepalive` (`src/main.rs` lines 166-179): prepend
the keepalive option pairs unless some existing token contains
`ServerAliveInterval`. -/
def inject_keepalive (interval : Nat) (args : List String) : List String :=
  if args.any (fun a => containsSub a "ServerAliveInterval") then args
  else keepaliveOpts interval ++ args

/-! ## Reconnect supervisor (src/reconnect.rs) -/

/-- Translation of the retry loop of `run_with_reconnect`
(`src/reconnect.rs` lines 13-34).  `exits i` is the exit code of the `i`-th
run of the client process (`status.code().unwrap_or(1)` in the source);
`args` is the argument vector passed to every spawn.  The Rust loop
variable `attempt` starts at `0` and the loop retries while
`code == 255 && attempt < max_retries`; here `remaining = max_retries - attempt`
is the structural recursion measure, so `attempt < max_retries` is exactly
`remaining > 0`.  The result is the final exit code (the argument of
`std::process::exit`), the final value of `attempt` (the number of delayed
retries performed) and the per-attempt argument vectors in order. -/
def reconnectAux (exits : Nat → Int) (args : List String) :
    Nat → Nat → Int × Nat × List (List String)
  | 0, attempt => (exits attempt, attempt, [args])
  | remaining + 1, attempt =>
    if exits attempt = 255 then
      let r := reconnectAux exits args remaining (attempt + 1)
      (r.1, r.2.1, args :: r.2.2)
    else (exits attempt, attempt, [args])

/-- `run_with_reconnect(args, max_retries, _)` run against the simulated
client `exits`. -/
def run_with_reconnect (exits : Nat → Int) (args : List String) (maxRetries : Nat) :
    Int × Nat × List (List String) :=
  reconnectAux exits args maxRetries 0

/-! ## Theorems: C4 (argument extraction) -/

theorem extract_eq_map_strip (args : List String) :
    extract_target_host args = (extract_target_host_full args).map stripUser := by
  induction args using extract_target_host.induct <;>
    simp_all [extract_target_host, extract_target_host_full]

/-- C4: `extract_target_host` performs the same left-to-right flag-skipping
scan as `extract_target_host_full` and differs only by stripping the part up
to the first `@` of the result (so both return `none` on exactly the same
inputs, namely when no positional token exists); on
`["-p","22","-i","/k","user@host"]` they return `host` and `user@host`
respectively, and on `["-v","-N"]` both return `none`. -/
theorem extract_target_host_spec :
    (∀ args : List String,
        extract_target_host args = (extract_target_host_full args).map stripUser)
    ∧ extract_target_host ["-p", "22", "-i", "/k", "user@host"] = some "host"
    ∧ extract_target_host_full ["-p", "22", "-i", "/k", "user@host"] = some "user@host"
    ∧ extract_target_host ["-v", "-N"] = none
    ∧ extract_target_host_full ["-v", "-N"] = none := by
  refine ⟨extract_eq_map_strip, by decide, by decide, by decide, by decide⟩

/-! ## Theorems: C6 (keepalive injection) -/

theorem isPrefixOf_of_isPrefix {l₁ l₂ : List Char} (h : l₁ <+: l₂) :
    l₁.isPrefixOf l₂ = true :=
  List.isPrefixOf_iff_prefix.mpr h

theorem subListOf_of_isPrefix {needle hay : List Char} (h : needle.isPrefixOf hay = true) :
    subListOf needle hay = true := by
  cases hay with
  | nil => simpa [subListOf] using h
  | cons c t => simp [subListOf, h]

theorem keepalive_token_contains (i : Nat) :
    containsSub ("ServerAliveInterval=" ++ toString i) "ServerAliveInterval" = true := by
  apply subListOf_of_isPrefix
  apply isPrefixOf_of_isPrefix
  rw [String.data_append]
  exact List.IsPrefix.trans (by decide) (List.prefix_append _ _)

theorem inject_keepalive_already_set (i : Nat) (v : List String)
    (h : v.any (fun a => containsSub a "ServerAliveInterval") = true) :
    inject_keepalive i v = v := by
  simp [inject_keepalive, h]

theorem inject_keepalive_not_set (i : Nat) (v : List String)
    (h : v.any (fun a => containsSub a "ServerAliveInterval") = false) :
    inject_keepalive i v = keepaliveOpts i ++ v := by
  simp [inject_keepalive, h]

/-- C6: keepalive injection is idempotent on every argument vector; if some
token already contains `ServerAliveInterval` the vector is returned
unchanged, and otherwise exactly the two option pairs (probe interval and
missed-probe count) are prepended. -/
theorem inject_keepalive_spec :
    (∀ (i : Nat) (v : List String),
        inject_keepalive i (inject_keepalive i v) = inject_keepalive i v)
    ∧ (∀ (i : Nat) (v : List String),
        v.any (fun a => containsSub a "ServerAliveInterval") = true →
        inject_keepalive i v = v)
    ∧ (∀ (i : Nat) (v : List String),
        v.any (fun a => containsSub a "ServerAliveInterval") = false →
        inject_keepalive i v = keepaliveOpts i ++ v) := by
  refine ⟨?_, inject_keepalive_already_set, inject_keepalive_not_set⟩
  intro i v
  cases h : v.any (fun a => containsSub a "ServerAliveInterval") with
  | true => rw [inject_keepalive_already_set i v h, inject_keepalive_already_set i v h]
  | false =>
    rw [inject_keepalive_not_set i v h]
    apply inject_keepalive_already_set
    simp only [keepaliveOpts, List.any_append, List.any_cons, Bool.or_eq_true]
    exact Or.inl (Or.inr (Or.inl (keepalive_token_contains i)))

/-- Witness for `inject_keepalive_spec`: the hypotheses of its second and
third conjuncts hold at concrete inputs. -/
theorem inject_keepalive_spec_witness :
    inject_keepalive 60 ["-o", "ServerAliveInterval=5", "host"]
        = ["-o", "ServerAliveInterval=5", "host"]
    ∧ inject_keepalive 60 ["-v", "host"] = keepaliveOpts 60 ++ ["-v", "host"] := by
  exact ⟨inject_keepalive_spec.2.1 60 _ (by decide), inject_keepalive_spec.2.2 60 _ (by decide)⟩

/-! ## Theorems: C1 (reconnect supervisor) -/

theorem reconnectAux_stops (exits : Nat → Int) (args : List String) (k : Nat)
    (hbefore : ∀ i, i < k → exits i = 255) (hk : exits k ≠ 255) :
    ∀ (d remaining attempt : Nat), k = attempt + d → d ≤ remaining →
      reconnectAux exits args remaining attempt
        = (exits k, k, List.replicate (d + 1) args) := by
  intro d
  induction d with
  | zero =>
    intro remaining attempt hv _
    have hak : attempt = k := by omega
    subst hak
    cases remaining with
    | zero => simp [reconnectAux, List.replicate]
    | succ r => simp [reconnectAux, hk, List.replicate]
  | succ d ih =>
    intro remaining attempt hv hle
    have h255 : exits attempt = 255 := hbefore attempt (by omega)
    cases remaining with
    | zero => omega
    | succ r =>
      have := ih r (attempt + 1) (by omega) (by omega)
      simp [reconnectAux, h255, this, List.replicate]

theorem reconnectAux_exhausts (exits : Nat → Int) (args : List String) (k : Nat)
    (hbefore : ∀ i, i < k → exits i = 255) :
    ∀ (remaining attempt : Nat), attempt + remaining < k →
      reconnectAux exits args remaining attempt
        = (255, attempt + remaining, List.replicate (remaining + 1) args) := by
  intro remaining
  induction remaining with
  | zero =>
    intro attempt hlt
    have := hbefore attempt (by omega)
    simp [reconnectAux, this, List.replicate]
  | succ r ih =>
    intro attempt hlt
    have h255 : exits attempt = 255 := hbefore attempt (by omega)
    have := ih (attempt + 1) (by omega)
    simp [reconnectAux, h255, this, List.replicate]
    omega

/-- C1: if the simulated client exits `255` exactly `k` times and then exits
with a code different from `255`, then with `max_retries = n ≥ k` the
supervisor performs exactly `k` delayed retries, each spawn receiving the
identical argument vector, and reports `exits k` unchanged as the final exit
code (in particular a first non-255 exit terminates the loop at once); with
`n < k` it performs exactly `n` retries and exits with `255`. -/
theorem run_with_reconnect_spec (exits : Nat → Int) (args : List String) (n k : Nat)
    (hbefore : ∀ i, i < k → exits i = 255) (hk : exits k ≠ 255) :
    (k ≤ n →
      run_with_reconnect exits args n = (exits k, k, List.replicate (k + 1) args))
    ∧ (n < k →
      run_with_reconnect exits args n = (255, n, List.replicate (n + 1) args)) := by
  constructor
  · intro hkn
    exact reconnectAux_stops exits args k hbefore hk k n 0 (by omega) hkn
  · intro hnk
    simpa using reconnectAux_exhausts exits args k hbefore n 0 (by omega)

/-- Witness for `run_with_reconnect_spec`: a client that exits 255 twice and
then 0, supervised with `max_retries = 3` and with `max_retries = 1`. -/
theorem run_with_reconnect_spec_witness :
    run_with_reconnect (fun i => if i < 2 then 255 else 0) ["user@h"] 3
        = (0, 2, List.replicate 3 ["user@h"])
    ∧ run_with_reconnect (fun i => if i < 2 then 255 else 0) ["user@h"] 1
        = (255, 1, List.replicate 2 ["user@h"]) := by
  constructor
  · have := (run_with_reconnect_spec (fun i => if i < 2 then 255 else 0) ["user@h"] 3 2
      (fun i hi => by simp [hi]) (by decide)).1 (by decide)
    simpa using this
  · have := (run_with_reconnect_spec (fun i => if i < 2 then 255 else 0) ["user@h"] 1 2
      (fun i hi => by simp [hi]) (by decide)).2 (by decide)
    simpa using this

/-! ## Host resolution (src/hosts.rs) -/

/-- `HostSource` from `src/hosts.rs`. -/
inductive HostSource where
  | SshConfig
  | HostsToml
deriving DecidableEq

/-- `HostEntry` from `src/hosts_toml.rs` (one record of the store file). -/
structure HostEntry where
  hostname : String
  user : Option String
  port : Option Nat
  identity_file : Option String
  tags : List String
deriving DecidableEq

/-- `Host` from `src/hosts.rs`. -/
structure Host where
  «alias» : String
  hostname : Option String
  user : Option String
  port : Option Nat
  identity_file : Option String
  tags : List String
  source : HostSource
deriving DecidableEq

/-- The minimal Host inserted for a config-file alias (`src/hosts.rs`
lines 33-44). -/
def hostFromSshConfig (a : String) : Host :=
  { «alias» := a, hostname := none, user := none, port := none, identity_file := none,
    tags := [], source := HostSource.SshConfig }

/-- The Host built from a store entry (`src/hosts.rs` lines 52-63). -/
def hostFromToml (a : String) (e : HostEntry) : Host :=
  { «alias» := a, hostname := some e.hostname, user := e.user, port := e.port,
    identity_file := e.identity_file, tags := e.tags, source := HostSource.HostsToml }

/-- `HashMap::insert` on an association list with one binding per key:
replace the value under an existing key, otherwise add the binding. -/
def mapInsert (m : List (String × Host)) (k : String) (v : Host) : List (String × Host) :=
  if m.any (fun p => p.1 == k) then m.map (fun p => if p.1 = k then (k, v) else p)
  else m ++ [(k, v)]

/-- `HashMap` lookup on the association list. -/
def lookupM (m : List (String × Host)) (k : String) : Option Host :=
  (m.find? (fun p => p.1 == k)).map Prod.snd

/-- The keys of the association list. -/
def keysOf (m : List (String × Host)) : List String := m.map Prod.fst

/-- Every stored Host records its own key as its alias. -/
def alignedM (m : List (String × Host)) : Prop := ∀ p ∈ m, p.2.«alias» = p.1

/-- Order on hosts used for the final sort of `list_all_hosts`
(`hosts.sort_by(|a, b| a.alias.cmp(&b.alias))`). -/
def hostLe (a b : Host) : Prop := a.«alias» ≤ b.«alias»

instance : DecidableRel hostLe := fun a b => inferInstanceAs (Decidable (a.«alias» ≤ b.«alias»))

instance : IsTotal Host hostLe := ⟨fun a b => le_total a.«alias» b.«alias»⟩

instance : IsTrans Host hostLe where
  trans a b _ hab hbc := le_trans (show a.«alias» ≤ b.«alias» from hab) hbc

/-- Translation of `list_all_hosts` (`src/hosts.rs` lines 27-69).  The two
effectful sources are passed in: `sshHosts` is the alias list produced by
`parse_ssh_config` and `tomlHosts` the binding list of the store file's hash
map (whose keys are distinct).  Config aliases are inserted first, then the
store entries overlay them; the values of the resulting map are sorted by
alias.  The `HashMap` is modelled by an association list; its unordered
value iteration feeds a sort keyed by the (distinct) aliases, so the model's
insertion order does not affect the result. -/
def list_all_hosts (sshHosts : List String) (tomlHosts : List (String × HostEntry)) :
    List Host :=
  let m1 := sshHosts.foldl (fun m a => mapInsert m a (hostFromSshConfig a)) []
  let m2 := tomlHosts.foldl (fun m p => mapInsert m p.1 (hostFromToml p.1 p.2)) m1
  List.insertionSort hostLe (m2.map Prod.snd)

/-! ## Theorems: C2 (host resolution) -/

theorem keysOf_mapInsert (m : List (String × Host)) (k : String) (v : Host) :
    keysOf (mapInsert m k v)
      = if m.any (fun p => p.1 == k) = true then keysOf m else keysOf m ++ [k] := by
  unfold mapInsert keysOf
  split
  · rw [List.map_map]
    apply List.map_congr_left
    intro p _
    by_cases hp : p.1 = k <;> simp [hp]
  · simp

theorem nodup_keysOf_mapInsert (m : List (String × Host)) (k : String) (v : Host)
    (h : (keysOf m).Nodup) : (keysOf (mapInsert m k v)).Nodup := by
  rw [keysOf_mapInsert]
  split
  · exact h
  · rename_i hany
    have hk : k ∉ keysOf m := by
      intro hmem
      rcases List.mem_map.mp hmem with ⟨p, hp, hpk⟩
      have : m.any (fun p => p.1 == k) = true :=
        List.any_eq_true.mpr ⟨p, hp, by simp [hpk]⟩
      simp [this] at hany
    simp [List.nodup_append, h, hk]

theorem alignedM_mapInsert (m : List (String × Host)) (k : String) (v : Host)
    (h : alignedM m) (hv : v.«alias» = k) : alignedM (mapInsert m k v) := by
  unfold mapInsert
  split
  · intro p hp
    rcases List.mem_map.mp hp with ⟨q, hq, hfq⟩
    by_cases hqk : q.1 = k
    · simp only [hqk, if_pos rfl] at hfq
      subst hfq; exact hv
    · simp only [if_neg hqk] at hfq
      subst hfq; exact h q hq
  · intro p hp
    rcases List.mem_append.mp hp with hp | hp
    · exact h p hp
    · rcases List.mem_singleton.mp hp with rfl
      exact hv

theorem lookupM_mapInsert_self (m : List (String × Host)) (k : String) (v : Host) :
    lookupM (mapInsert m k v) k = some v := by
  unfold mapInsert lookupM
  split
  · rename_i hany
    induction m with
    | nil => simp at hany
    | cons q t ih =>
      by_cases hqk : q.1 = k
      · simp [List.find?_cons, hqk]
      · simp only [List.any_cons, Bool.or_eq_true, beq_iff_eq, hqk, false_or] at hany
        simpa [List.find?_cons, hqk] using ih hany
  · induction m with
    | nil => simp [List.find?_cons]
    | cons q t ih =>
      rename_i hany
      have hqk : ¬(q.1 = k) := by
        intro hq
        exact hany (List.any_eq_true.mpr ⟨q, List.mem_cons_self q t, by simp [hq]⟩)
      have ht : ¬(t.any (fun p => p.1 == k) = true) := by
        intro hq
        rcases List.any_eq_true.mp hq with ⟨p, hp, hpk⟩
        exact hany (List.any_eq_true.mpr ⟨p, List.mem_cons_of_mem q hp, hpk⟩)
      simpa [List.find?_cons, hqk] using ih ht

theorem find_insert_ne (k a : String) (v : Host) (hne : a ≠ k) :
    ∀ t : List (String × Host),
      (t.map (fun p => if p.1 = k then (k, v) else p)).find? (fun p => p.1 == a)
        = t.find? (fun p => p.1 == a) := by
  have hka : ¬(k = a) := fun h => hne h.symm
  intro t
  induction t with
  | nil => rfl
  | cons q t ih =>
    by_cases hqk : q.1 = k
    · have hqa : ¬(q.1 = a) := by rw [hqk]; exact hka
      simp [List.find?_cons, hqk, hka, hqa, ih]
    · by_cases hqa : q.1 = a
      · simp [List.find?_cons, hqk, hqa, hne]
      · simp [List.find?_cons, hqk, hqa, ih]

theorem lookupM_mapInsert_ne (m : List (String × Host)) (k a : String) (v : Host)
    (hne : a ≠ k) : lookupM (mapInsert m k v) a = lookupM m a := by
  have hka : ¬(k = a) := fun h => hne h.symm
  unfold mapInsert lookupM
  split
  · rw [find_insert_ne k a v hne m]
  · rw [List.find?_append]
    have h2 : List.find? (fun p => p.1 == a) [(k, v)] = none := by
      simp [List.find?_cons, hka]
    rw [h2]
    cases List.find? (fun p => p.1 == a) m <;> simp

theorem sshFold_aligned :
    ∀ (l : List String) (m : List (String × Host)), alignedM m →
      alignedM (l.foldl (fun m a => mapInsert m a (hostFromSshConfig a)) m)
  | [], _, h => h
  | a :: l, m, h =>
    sshFold_aligned l _ (alignedM_mapInsert m a _ h rfl)

theorem tomlFold_aligned :
    ∀ (l : List (String × HostEntry)) (m : List (String × Host)), alignedM m →
      alignedM (l.foldl (fun m p => mapInsert m p.1 (hostFromToml p.1 p.2)) m)
  | [], _, h => h
  | p :: l, m, h =>
    tomlFold_aligned l _ (alignedM_mapInsert m p.1 _ h rfl)

theorem sshFold_nodup_keys :
    ∀ (l : List String) (m : List (String × Host)), (keysOf m).Nodup →
      (keysOf (l.foldl (fun m a => mapInsert m a (hostFromSshConfig a)) m)).Nodup
  | [], _, h => h
  | a :: l, m, h =>
    sshFold_nodup_keys l _ (nodup_keysOf_mapInsert m a _ h)

theorem tomlFold_nodup_keys :
    ∀ (l : List (String × HostEntry)) (m : List (String × Host)), (keysOf m).Nodup →
      (keysOf (l.foldl (fun m p => mapInsert m p.1 (hostFromToml p.1 p.2)) m)).Nodup
  | [], _, h => h
  | p :: l, m, h =>
    tomlFold_nodup_keys l _ (nodup_keysOf_mapInsert m p.1 _ h)

theorem sshFold_lookup_not_mem (a : String) :
    ∀ (l : List String) (m : List (String × Host)), a ∉ l →
      lookupM (l.foldl (fun m a => mapInsert m a (hostFromSshConfig a)) m) a = lookupM m a := by
  intro l
  induction l with
  | nil => intro m _; rfl
  | cons y l ih =>
    intro m hnot
    rw [List.foldl_cons, ih _ (fun h => hnot (List.mem_cons_of_mem y h)),
      lookupM_mapInsert_ne m y a _ (fun h => hnot (h ▸ List.mem_cons_self y l))]

theorem tomlFold_lookup_not_mem (a : String) :
    ∀ (l : List (String × HostEntry)) (m : List (String × Host)), a ∉ l.map Prod.fst →
      lookupM (l.foldl (fun m p => mapInsert m p.1 (hostFromToml p.1 p.2)) m) a
        = lookupM m a := by
  intro l
  induction l with
  | nil => intro m _; rfl
  | cons q l ih =>
    intro m hnot
    have h1 : a ∉ l.map Prod.fst := fun h => hnot (List.mem_cons_of_mem _ h)
    have h2 : a ≠ q.1 := fun h => hnot (h ▸ List.mem_cons_self q.1 (l.map Prod.fst))
    rw [List.foldl_cons, ih _ h1, lookupM_mapInsert_ne m q.1 a _ h2]

theorem sshFold_lookup_mem (a : String) :
    ∀ (l : List String) (m : List (String × Host)), a ∈ l →
      lookupM (l.foldl (fun m a => mapInsert m a (hostFromSshConfig a)) m) a
        = some (hostFromSshConfig a) := by
  intro l
  induction l with
  | nil => intro m h; cases h
  | cons y l ih =>
    intro m hmem
    by_cases hal : a ∈ l
    · exact ih _ hal
    · have hay : a = y := by
        rcases List.mem_cons.mp hmem with h | h
        · exact h
        · exact absurd h hal
      subst hay
      rw [List.foldl_cons, sshFold_lookup_not_mem a l _ hal, lookupM_mapInsert_self]

theorem tomlFold_lookup_mem (a : String) (e : HostEntry) :
    ∀ (l : List (String × HostEntry)) (m : List (String × Host)),
      (l.map Prod.fst).Nodup → (a, e) ∈ l →
      lookupM (l.foldl (fun m p => mapInsert m p.1 (hostFromToml p.1 p.2)) m) a
        = some (hostFromToml a e) := by
  intro l
  induction l with
  | nil => intro m _ h; cases h
  | cons q l ih =>
    intro m hnd hmem
    have hnd' := hnd
    rw [List.map_cons, List.nodup_cons] at hnd'
    rcases List.mem_cons.mp hmem with heq | hmem'
    · have hq : q = (a, e) := heq.symm
      subst hq
      have hnot : a ∉ l.map Prod.fst := hnd'.1
      rw [List.foldl_cons, tomlFold_lookup_not_mem a l _ hnot, lookupM_mapInsert_self]
    · exact ih _ hnd'.2 hmem'

theorem lookupM_of_mem (p : String × Host) :
    ∀ m : List (String × Host), (keysOf m).Nodup → p ∈ m → lookupM m p.1 = some p.2 := by
  intro m
  induction m with
  | nil => intro _ hp; cases hp
  | cons q t ih =>
    intro hnd hp
    have hnd' := hnd
    rw [keysOf, List.map_cons, List.nodup_cons] at hnd'
    rcases List.mem_cons.mp hp with rfl | hp'
    · simp [lookupM, List.find?_cons]
    · have hq1 : ¬(q.1 = p.1) := by
        intro h
        exact hnd'.1 (h ▸ List.mem_map_of_mem Prod.fst hp')
      have := ih hnd'.2 hp'
      simpa [lookupM, List.find?_cons, hq1] using this

theorem lookupM_inv (m : List (String × Host)) (a : String) (h : Host)
    (hl : lookupM m a = some h) : h ∈ m.map Prod.snd ∧ (alignedM m → h.«alias» = a) := by
  unfold lookupM at hl
  rcases Option.map_eq_some'.mp hl with ⟨p, hfind, hsnd⟩
  have hmem : p ∈ m := List.mem_of_find?_eq_some hfind
  have hpred := List.find?_some hfind
  have hp1 : p.1 = a := by simpa using hpred
  constructor
  · exact hsnd ▸ List.mem_map_of_mem Prod.snd hmem
  · intro hal
    rw [← hsnd, hal p hmem, hp1]

/-- C2: for unique store keys (the store is a hash map), the resolved host
list contains, for an alias in both sources, exactly one Host — the
store-sourced one with the store's fields unmodified; for a config-only
alias, exactly one Host with `source = SshConfig` and all optional fields
unset; aliases in the output are pairwise distinct and the output is sorted
by alias. -/
theorem list_all_hosts_spec (sshHosts : List String) (tomlHosts : List (String × HostEntry))
    (hnd : (tomlHosts.map Prod.fst).Nodup) :
    (∀ a e, a ∈ sshHosts → (a, e) ∈ tomlHosts →
        hostFromToml a e ∈ list_all_hosts sshHosts tomlHosts
        ∧ ∀ h ∈ list_all_hosts sshHosts tomlHosts, h.«alias» = a → h = hostFromToml a e)
    ∧ (∀ a, a ∈ sshHosts → a ∉ tomlHosts.map Prod.fst →
        hostFromSshConfig a ∈ list_all_hosts sshHosts tomlHosts
        ∧ ∀ h ∈ list_all_hosts sshHosts tomlHosts, h.«alias» = a → h = hostFromSshConfig a)
    ∧ ((list_all_hosts sshHosts tomlHosts).map Host.«alias»).Nodup
    ∧ List.Pairwise hostLe (list_all_hosts sshHosts tomlHosts) := by
  have hout : list_all_hosts sshHosts tomlHosts
      = List.insertionSort hostLe
          ((tomlHosts.foldl (fun m p => mapInsert m p.1 (hostFromToml p.1 p.2))
            (sshHosts.foldl (fun m a => mapInsert m a (hostFromSshConfig a)) [])).map
              Prod.snd) := rfl
  have h0nd : (keysOf ([] : List (String × Host))).Nodup := by simp [keysOf]
  have h0al : alignedM ([] : List (String × Host)) := fun p hp => absurd hp (List.not_mem_nil p)
  have hnd2 : (keysOf (tomlHosts.foldl (fun m p => mapInsert m p.1 (hostFromToml p.1 p.2))
      (sshHosts.foldl (fun m a => mapInsert m a (hostFromSshConfig a)) []))).Nodup :=
    tomlFold_nodup_keys tomlHosts _ (sshFold_nodup_keys sshHosts [] h0nd)
  have hal2 : alignedM (tomlHosts.foldl (fun m p => mapInsert m p.1 (hostFromToml p.1 p.2))
      (sshHosts.foldl (fun m a => mapInsert m a (hostFromSshConfig a)) [])) :=
    tomlFold_aligned tomlHosts _ (sshFold_aligned sshHosts [] h0al)
  have huniq : ∀ (a : String) (target h : Host),
      lookupM (tomlHosts.foldl (fun m p => mapInsert m p.1 (hostFromToml p.1 p.2))
        (sshHosts.foldl (fun m a => mapInsert m a (hostFromSshConfig a)) [])) a = some target →
      h ∈ list_all_hosts sshHosts tomlHosts → h.«alias» = a → h = target := by
    intro a target h hla hmem halias
    rw [hout, List.mem_insertionSort] at hmem
    rcases List.mem_map.mp hmem with ⟨p, hp, hsnd⟩
    have := lookupM_of_mem p _ hnd2 hp
    have hpa : p.1 = a := by rw [← halias, ← hsnd]; exact (hal2 p hp).symm
    rw [hpa] at this
    rw [hla] at this
    rw [← hsnd]
    exact Option.some.inj this.symm
  refine ⟨?_, ?_, ?_, ?_⟩
  · intro a e _ he
    have hla : lookupM (tomlHosts.foldl (fun m p => mapInsert m p.1 (hostFromToml p.1 p.2))
        (sshHosts.foldl (fun m a => mapInsert m a (hostFromSshConfig a)) [])) a
        = some (hostFromToml a e) :=
      tomlFold_lookup_mem a e tomlHosts _ hnd he
    refine ⟨?_, fun h hmem halias => huniq a _ h hla hmem halias⟩
    rw [hout, List.mem_insertionSort]
    exact (lookupM_inv _ a _ hla).1
  · intro a ha hnot
    have hla : lookupM (tomlHosts.foldl (fun m p => mapInsert m p.1 (hostFromToml p.1 p.2))
        (sshHosts.foldl (fun m a => mapInsert m a (hostFromSshConfig a)) [])) a
        = some (hostFromSshConfig a) := by
      rw [tomlFold_lookup_not_mem a tomlHosts _ hnot]
      exact sshFold_lookup_mem a sshHosts [] ha
    refine ⟨?_, fun h hmem halias => huniq a _ h hla hmem halias⟩
    rw [hout, List.mem_insertionSort]
    exact (lookupM_inv _ a _ hla).1
  · rw [hout]
    have hperm := (List.perm_insertionSort hostLe
      ((tomlHosts.foldl (fun m p => mapInsert m p.1 (hostFromToml p.1 p.2))
        (sshHosts.foldl (fun m a => mapInsert m a (hostFromSshConfig a)) [])).map
          Prod.snd)).map Host.«alias»
    rw [hperm.nodup_iff, List.map_map]
    have heq : (tomlHosts.foldl (fun m p => mapInsert m p.1 (hostFromToml p.1 p.2))
        (sshHosts.foldl (fun m a => mapInsert m a (hostFromSshConfig a)) [])).map
          (Host.«alias» ∘ Prod.snd)
        = keysOf (tomlHosts.foldl (fun m p => mapInsert m p.1 (hostFromToml p.1 p.2))
            (sshHosts.foldl (fun m a => mapInsert m a (hostFromSshConfig a)) [])) :=
      List.map_congr_left (fun p hp => hal2 p hp)
    rw [heq]
    exact hnd2
  · rw [hout]
    exact List.sorted_insertionSort hostLe _

/-- Witness for `list_all_hosts_spec`: a two-alias config file overlaid with
a one-entry store sharing the alias `b`. -/
theorem list_all_hosts_spec_witness :
    hostFromToml "b" ⟨"10.0.0.2", some "root", some 22, none, ["prod"]⟩
        ∈ list_all_hosts ["a", "b"] [("b", ⟨"10.0.0.2", some "root", some 22, none, ["prod"]⟩)]
    ∧ hostFromSshConfig "a"
        ∈ list_all_hosts ["a", "b"]
            [("b", ⟨"10.0.0.2", some "root", some 22, none, ["prod"]⟩)] := by
  constructor
  · exact ((list_all_hosts_spec ["a", "b"] _ (by decide)).1 "b" _ (by decide) (by decide)).1
  · exact ((list_all_hosts_spec ["a", "b"] _ (by decide)).2.1 "a" (by decide) (by decide)).1

/-! ## SSH config parsing (src/ssh_config.rs) -/

/-- Rust `str::trim` on the character list of a line. -/
def trimChars (l : List Char) : List Char :=
  ((l.dropWhile Char.isWhitespace).reverse.dropWhile Char.isWhitespace).reverse

/-- Rust `str::split_whitespace`: whitespace-separated words with empty
words dropped; `acc` holds the current word reversed. -/
def wordsAux : List Char → List Char → List String
  | [], acc => if acc.isEmpty then [] else [String.mk acc.reverse]
  | c :: cs, acc =>
    if c.isWhitespace then
      if acc.isEmpty then wordsAux cs [] else String.mk acc.reverse :: wordsAux cs []
    else wordsAux cs (c :: acc)

/-- The `Key Value` arm of `split_keyword` (`src/ssh_config.rs` lines 75-82):
split at the first whitespace character; no second part, or an empty trimmed
value, yields `none`. -/
def splitKVSpace (line : List Char) : Option (List Char × List Char) :=
  let key := line.takeWhile (fun c => !c.isWhitespace)
  let rest := line.dropWhile (fun c => !c.isWhitespace)
  match rest with
  | [] => none
  | _ :: tail =>
    let val := trimChars tail
    if val.isEmpty then none else some (key, val)

/-- Translation of `split_keyword` (`src/ssh_config.rs` lines 66-83): try
`Key=Value` at the first `=` (both sides trimmed and non-empty), falling
back to splitting at the first whitespace. -/
def split_keyword (line : List Char) : Option (List Char × List Char) :=
  let before := line.takeWhile (fun c => c ≠ '=')
  let after := line.dropWhile (fun c => c ≠ '=')
  match after with
  | _ :: tail =>
    let key := trimChars before
    let val := trimChars tail
    if !key.isEmpty && !val.isEmpty then some (key, val) else splitKVSpace line
  | [] => splitKVSpace line

/-- A `Host` token is kept only when it contains neither `*` nor `?`
(`src/ssh_config.rs` lines 45-50). -/
def isConcreteAlias (a : String) : Bool :=
  !(a.data.contains '*') && !(a.data.contains '?')

/-- One line of the `parse_file` loop (`src/ssh_config.rs` lines 27-60).
The state is the `in_match_block` flag and the accumulated `hosts` vector.
`recur` is the recursive re-entry into `parse_file` performed by
`process_include`; `resolve pattern path` abstracts `process_include`'s
tilde expansion, resolution relative to the including file and filesystem
glob (`src/ssh_config.rs` lines 85-111), returning the matched files in
order. -/
def processLine (resolve : String → String → List String)
    (recur : String → List String → List String) (path : String)
    (st : Bool × List String) (line : String) : Bool × List String :=
  let trimmed := trimChars line.data
  if trimmed.isEmpty || trimmed.head? = some '#' then st
  else
    match split_keyword trimmed with
    | none => st
    | some (kw, value) =>
      let k := kw.map Char.toLower
      if k = "host".data then
        (false, st.2 ++ (wordsAux value []).filter isConcreteAlias)
      else if k = "match".data then
        (true, st.2)
      else if k = "include".data then
        if st.1 then st
        else (st.1, (resolve (String.mk value) path).foldl (fun hs p => recur p hs) st.2)
      else st

/-- Translation of `parse_file` (`src/ssh_config.rs` lines 19-63) over an
explicit filesystem `fs` (mapping a path to the lines of a readable file,
`none` for an unreadable one, which is skipped silently).  The source
recursion through `Include` has no cycle detection; in the model each
nesting level consumes one unit of `fuel` and exhausted fuel returns the
accumulator unchanged, so every run of the source that terminates is
reproduced by every sufficiently large fuel. -/
def parse_file (fs : String → Option (List String))
    (resolve : String → String → List String) :
    Nat → String → List String → List String
  | 0 => fun _ hosts => hosts
  | fuel + 1 => fun path hosts =>
    match fs path with
    | none => hosts
    | some lines =>
      (lines.foldl (processLine resolve (parse_file fs resolve fuel) path) (false, hosts)).2

/-- Rust `Vec::dedup`: remove consecutive duplicates, keeping the first of
each run. -/
def dedupAdjacent : List String → List String
  | [] => []
  | [a] => [a]
  | a :: b :: rest =>
    if a = b then dedupAdjacent (b :: rest) else a :: dedupAdjacent (b :: rest)

/-- Decision procedure for the lexicographic order on character lists that
underlies `String.lt`, by structural recursion (the library's `String`
decidability goes through byte positions, which do not reduce in the
kernel). -/
def decLtChars : (x y : List Char) → Decidable (List.lt x y)
  | [], [] => isFalse (fun h => by cases h)
  | [], b :: bs => isTrue (List.lt.nil b bs)
  | _ :: _, [] => isFalse (fun h => by cases h)
  | a :: as, b :: bs =>
    if hab : a < b then isTrue (List.lt.head as bs hab)
    else if hba : b < a then
      isFalse (fun h => by
        cases h with
        | head _ _ h2 => exact hab h2
        | tail h1 h2 h3 => exact h2 hba)
    else
      match decLtChars as bs with
      | isTrue h => isTrue (List.lt.tail hab hba h)
      | isFalse h =>
        isFalse (fun hcon => by
          cases hcon with
          | head _ _ h2 => exact hab h2
          | tail _ _ h3 => exact h h3)

instance decStrLt (a b : String) : Decidable (a < b) :=
  haveI : Decidable (List.lt a.data b.data) := decLtChars a.data b.data
  decidable_of_iff (List.lt a.data b.data)
    ((List.lt_iff_lex_lt a.data b.data).trans String.lt_iff_toList_lt.symm)

instance decStrLe (a b : String) : Decidable (a ≤ b) :=
  haveI : Decidable (List.lt b.data a.data) := decLtChars b.data a.data
  decidable_of_iff (¬ List.lt b.data a.data)
    (by
      rw [(List.lt_iff_lex_lt b.data a.data).trans String.lt_iff_toList_lt.symm]
      exact not_lt)

/-- The order of Rust's `Vec::<String>::sort`: UTF-8 byte order, which
coincides with the code-point lexicographic order of Lean's `String.le`. -/
def strLe (a b : String) : Prop := a ≤ b

instance : DecidableRel strLe := fun a b => decStrLe a b

instance : IsTotal String strLe := ⟨le_total⟩

instance : IsTrans String strLe := ⟨fun _ _ _ => le_trans⟩

/-- Translation of `parse_ssh_config` (`src/ssh_config.rs` lines 6-17):
parse the root file (an absent root contributes nothing through
`fs root = none`), then `sort` and `dedup` the collected aliases. -/
def parse_ssh_config (fs : String → Option (List String))
    (resolve : String → String → List String) (fuel : Nat) (root : String) : List String :=
  dedupAdjacent (List.insertionSort strLe (parse_file fs resolve fuel root []))

/-! ## Theorems: C3 (config parsing) -/

theorem mem_dedupAdjacent (x : String) : ∀ l : List String, x ∈ dedupAdjacent l ↔ x ∈ l
  | [] => by simp [dedupAdjacent]
  | [a] => by simp [dedupAdjacent]
  | a :: b :: rest => by
    have ih := mem_dedupAdjacent x (b :: rest)
    by_cases hab : a = b
    · subst hab
      have h1 : dedupAdjacent (a :: a :: rest) = dedupAdjacent (a :: rest) := by
        simp [dedupAdjacent]
      rw [h1, ih, List.mem_cons, List.mem_cons, List.mem_cons]
      tauto
    · rw [dedupAdjacent, if_neg hab, List.mem_cons, List.mem_cons, ih, List.mem_cons]

theorem pairwise_lt_dedupAdjacent :
    ∀ l : List String, l.Pairwise strLe → (dedupAdjacent l).Pairwise (fun a b => a < b)
  | [], _ => by simp [dedupAdjacent]
  | [a], _ => by simp [dedupAdjacent]
  | a :: b :: rest, h => by
    have hab := List.pairwise_cons.mp h
    have ih := pairwise_lt_dedupAdjacent (b :: rest) hab.2
    by_cases heq : a = b
    · rw [dedupAdjacent, if_pos heq]
      exact ih
    · rw [dedupAdjacent, if_neg heq]
      refine List.pairwise_cons.mpr ⟨?_, ih⟩
      intro x hx
      have hxmem : x ∈ b :: rest := (mem_dedupAdjacent x (b :: rest)).mp hx
      have halb : a < b := lt_of_le_of_ne (hab.1 b (List.mem_cons_self b rest)) heq
      rcases List.mem_cons.mp hxmem with rfl | hxr
      · exact halb
      · exact lt_of_lt_of_le halb ((List.pairwise_cons.mp hab.2).1 x hxr)

/-- Test filesystem: a single config file with two concrete `Host` lines
around a wildcard one. -/
def fsHostsOnly : String → Option (List String) := fun p =>
  if p = "config" then some ["Host a b", "Host *.x", "Host c"] else none

/-- Glob oracle for configs without includes. -/
def resolveNone : String → String → List String := fun _ _ => []

/-- Glob oracle mapping an include pattern to the file of the same name. -/
def resolveSelf : String → String → List String := fun pat _ => [pat]

/-- Test filesystem: the root's `Include` comes after a `Match` line. -/
def fsIncludeAfterMatch : String → Option (List String) := fun p =>
  if p = "root" then some ["Match all", "Include inc"]
  else if p = "inc" then some ["Host z"] else none

/-- Test filesystem: the same `Include` comes before any `Match` line. -/
def fsIncludeBeforeMatch : String → Option (List String) := fun p =>
  if p = "root" then some ["Include inc", "Match all"]
  else if p = "inc" then some ["Host z"] else none

/-- Test filesystem: a `Host` line between the `Match` and the `Include`. -/
def fsHostReenables : String → Option (List String) := fun p =>
  if p = "root" then some ["Match all", "Host h", "Include inc"]
  else if p = "inc" then some ["Host z"] else none

/-- C3: `parse_ssh_config` returns a strictly sorted — hence deduplicated —
list holding exactly the aliases collected by the recursive `parse_file`
traversal, for every filesystem, glob oracle, fuel and root; parsing
`Host a b / Host *.x / Host c` yields exactly `[a, b, c]` (the wildcard
alias is excluded); an `Include` after a `Match` line contributes nothing
while the same `Include` before any `Match` contributes the included file's
aliases; and a `Host` line between the two clears the in-Match flag so a
subsequent `Include` is processed again. -/
theorem parse_ssh_config_spec :
    (∀ (fs : String → Option (List String)) (resolve : String → String → List String)
        (fuel : Nat) (root : String),
        List.Pairwise (fun a b : String => a < b) (parse_ssh_config fs resolve fuel root)
        ∧ ∀ a, a ∈ parse_ssh_config fs resolve fuel root
            ↔ a ∈ parse_file fs resolve fuel root [])
    ∧ parse_ssh_config fsHostsOnly resolveNone 5 "config" = ["a", "b", "c"]
    ∧ parse_ssh_config fsIncludeAfterMatch resolveSelf 5 "root" = []
    ∧ parse_ssh_config fsIncludeBeforeMatch resolveSelf 5 "root" = ["z"]
    ∧ parse_ssh_config fsHostReenables resolveSelf 5 "root" = ["h", "z"] := by
  refine ⟨?_, by decide, by decide, by decide, by decide⟩
  intro fs resolve fuel root
  constructor
  · exact pairwise_lt_dedupAdjacent _ (List.sorted_insertionSort strLe _)
  · intro a
    rw [parse_ssh_config, mem_dedupAdjacent, List.mem_insertionSort]

/-! ## Interactive picker (src/picker.rs) -/

/-- `PickerHost` from `src/picker.rs`: a resolved host joined with its
recency data (an ISO-8601 timestamp string from the history collaborator).
-/
structure PickerHost where
  host : Host
  last_connected : Option String
deriving DecidableEq

/-- Rust `str::to_lowercase` on the character list.  `Char.toLower` lowers
exactly the ASCII range; the Unicode special cases of `to_lowercase` are
outside the scope of the claims. -/
def lcs (s : String) : List Char := s.data.map Char.toLower

/-- The `#tag` arm of `filter_hosts` (`src/picker.rs` lines 204-212): some
tag contains the query remainder, case-insensitively. -/
def tagMatches (ph : PickerHost) (tagq : List Char) : Bool :=
  ph.host.tags.any (fun t => subListOf tagq (lcs t))

/-- The general arm of `filter_hosts` (`src/picker.rs` lines 214-227): the
query is contained in the alias, the hostname, the user or some tag,
case-insensitively (`is_some_and` on the optional fields). -/
def fieldMatches (ph : PickerHost) (q : List Char) : Bool :=
  subListOf q (lcs ph.host.«alias»)
  || (ph.host.hostname.any (fun hn => subListOf q (lcs hn)))
  || (ph.host.user.any (fun u => subListOf q (lcs u)))
  || ph.host.tags.any (fun t => subListOf q (lcs t))

/-- Translation of `filter_hosts` (`src/picker.rs` lines 198-230): the
indices of the hosts matching the query.  An empty query matches all; a
query beginning with `#` matches on tags only; otherwise all fields are
searched.  The query is lowercased once, and the enumerate/filter/map chain
matches the source. -/
def filter_hosts (phs : List PickerHost) (query : String) : List Nat :=
  if query = "" then List.range phs.length
  else
    let q := lcs query
    if q.head? = some '#' then
      (phs.enum.filter (fun p => tagMatches p.2 q.tail)).map Prod.fst
    else
      (phs.enum.filter (fun p => fieldMatches p.2 q)).map Prod.fst

/-- The group key of the sort comparator (`src/picker.rs` lines 51-52): the
first tag, `"￿"` being the sentinel for untagged hosts. -/
def groupOf (ph : PickerHost) : String := (ph.host.tags.head?).getD "￿"

/-- Rust `Ord::cmp` on strings; UTF-8 byte order coincides with the
code-point lexicographic order of `String.lt`. -/
def cmpStr (a b : String) : Ordering :=
  if a < b then Ordering.lt else if a = b then Ordering.eq else Ordering.gt

/-- The comparator of `picker_hosts.sort_by` (`src/picker.rs` lines 50-63):
first tag (with the untagged sentinel), then most-recent-first on the
timestamp strings, recency before none, alphabetical alias among the
recency-less. -/
def cmpPicker (a b : PickerHost) : Ordering :=
  match cmpStr (groupOf a) (groupOf b) with
  | Ordering.lt => Ordering.lt
  | Ordering.gt => Ordering.gt
  | Ordering.eq =>
    match a.last_connected, b.last_connected with
    | some ats, some bts => cmpStr bts ats
    | some _, none => Ordering.lt
    | none, some _ => Ordering.gt
    | none, none => cmpStr a.host.«alias» b.host.«alias»

/-- `a` may precede `b` under the comparator. -/
def pickerLe (a b : PickerHost) : Prop := cmpPicker a b ≠ Ordering.gt

instance : DecidableRel pickerLe :=
  fun a b => inferInstanceAs (Decidable (¬ cmpPicker a b = Ordering.gt))

/-- The stable `sort_by` of `run_picker`: a stable sort under a total
preorder comparator is uniquely determined, and `List.insertionSort` is
stable, so it models Rust's stable `slice::sort_by`. -/
def sortPicker (phs : List PickerHost) : List PickerHost :=
  List.insertionSort pickerLe phs

/-- The within-group order stated by the spec: most recent first, recency
ahead of no recency, alphabetical alias among the recency-less. -/
def withinOrd (a b : PickerHost) : Bool :=
  match a.last_connected, b.last_connected with
  | some ats, some bts => decide (bts ≤ ats)
  | some _, none => true
  | none, some _ => false
  | none, none => decide (a.host.«alias» ≤ b.host.«alias»)

/-- The ordering stated by the claim: primary by first tag value
(alphabetically), every untagged item after every tagged one, then the
within-group order. -/
def claimOrd (a b : PickerHost) : Bool :=
  match a.host.tags.head?, b.host.tags.head? with
  | some ta, some tb =>
    if ta < tb then true else if ta = tb then withinOrd a b else false
  | some _, none => true
  | none, some _ => false
  | none, none => withinOrd a b

/-- Propositional form of the within-group order, used to state the
comparator characterisation. -/
def innerLe (a b : PickerHost) : Prop :=
  match a.last_connected, b.last_connected with
  | some ats, some bts => bts ≤ ats
  | some _, none => True
  | none, some _ => False
  | none, none => a.host.«alias» ≤ b.host.«alias»

/-- Translation of `render_row_of` (`src/picker.rs` lines 174-196): walk the
filtered indices counting one extra row whenever the group changes (headers
are shown), returning the row of the `selected`-th item. -/
def renderRowAux (phs : List PickerHost) (selected : Nat) (showHeaders : Bool) :
    List Nat → Nat → Nat → Option (Option String) → Nat
  | [], _, row, _ => row
  | idx :: rest, i, row, lastGroup =>
    let group : Option String :=
      match phs[idx]? with
      | some ph => ph.host.tags.head?
      | none => none
    let isNew : Bool := showHeaders && !(lastGroup == some group)
    let row1 := if isNew then row + 1 else row
    let lastGroup1 := if isNew then some group else lastGroup
    if i = selected then row1
    else renderRowAux phs selected showHeaders rest (i + 1) (row1 + 1) lastGroup1

/-- `render_row_of(picker_hosts, filtered, selected, show_headers)`. -/
def render_row_of (phs : List PickerHost) (filtered : List Nat) (selected : Nat)
    (showHeaders : Bool) : Nat :=
  renderRowAux phs selected showHeaders filtered 0 0 none

/-- The scroll adjustment of `run_picker_loop` (`src/picker.rs` lines
111-115). -/
def adjustScroll (row visRows offset : Nat) : Nat :=
  if row < offset then row
  else if 0 < visRows ∧ offset + visRows ≤ row then row + 1 - visRows
  else offset

/-- The mutable state of `run_picker_loop`: the query string, the selected
index into the filtered list, and the scroll offset. -/
structure LoopState where
  search : String
  selected : Nat
  scroll_offset : Nat

/-- The values computed by one iteration of `run_picker_loop` before the
redraw. -/
structure Frame where
  selected : Nat
  offset : Nat
  row : Nat
  filtered : List Nat

/-- The pre-redraw computation of one `run_picker_loop` iteration
(`src/picker.rs` lines 92-115): filter, clamp the selection, locate the
selected render row and adjust the scroll offset.  `termHeight` is the
terminal height; two rows are reserved for the search bar and the list
border (`visible_rows = term_height.saturating_sub(2)`). -/
def frameCompute (phs : List PickerHost) (termHeight : Nat) (st : LoopState) : Frame :=
  let filtered := filter_hosts phs st.search
  let matched := filtered.length
  let selected := if st.selected ≥ matched ∧ matched > 0 then matched - 1 else st.selected
  let showHeaders := filtered.any (fun idx =>
    match phs[idx]? with
    | some ph => !ph.host.tags.isEmpty
    | none => false)
  let row := render_row_of phs filtered selected showHeaders
  let offset := adjustScroll row (termHeight - 2) st.scroll_offset
  { selected := selected, offset := offset, row := row, filtered := filtered }

/-- The up/down keys of the event loop. -/
inductive NavKey where
  | up
  | down

/-- The Up/Down arms of the key handler (`src/picker.rs` lines 147-156). -/
def applyKey (matched selected : Nat) : NavKey → Nat
  | NavKey.up => if selected > 0 then selected - 1 else selected
  | NavKey.down => if selected + 1 < matched then selected + 1 else selected

/-- The event loop restricted to up/down transitions (`src/picker.rs` lines
92-169): each iteration recomputes the frame (which clamps the selection
and adjusts the scroll offset), then applies the key to the selection. -/
def runNav (phs : List PickerHost) (termHeight : Nat) :
    List NavKey → LoopState → LoopState
  | [], st => st
  | k :: ks, st =>
    let f := frameCompute phs termHeight st
    runNav phs termHeight ks
      { search := st.search, selected := applyKey f.filtered.length f.selected k,
        scroll_offset := f.offset }

/-- The `PickerHost` list built by `run_picker` (`src/picker.rs` lines
31-63): join each host with its recency entry (`recent` is the
alias/timestamp list of the history collaborator) and sort with the
grouping comparator. -/
def buildPickerHosts (allHosts : List Host) (recent : List (String × String)) :
    List PickerHost :=
  sortPicker (allHosts.map (fun h =>
    { host := h,
      last_connected := (recent.find? (fun r => r.1 == h.«alias»)).map Prod.snd }))

/-- Translation of the entry of `run_picker` (`src/picker.rs` lines 25-82):
an empty resolved host list is rejected with the no-hosts error before the
terminal is touched; otherwise the interactive session `ui` runs on the
built list.  `ui` abstracts the event loop (`run_picker_loop`), whose
errors also include user cancellation. -/
def run_picker (ui : List PickerHost → Except String Host)
    (allHosts : List Host) (recent : List (String × String)) : Except String Host :=
  if allHosts.isEmpty then
    Except.error "no hosts found — add one with: oken host add <name> <user@host>"
  else ui (buildPickerHosts allHosts recent)

/-- The no-argument path of `main` (`src/main.rs` lines 88-97): a picker
error — the empty-host-list error as well as cancellation — is mapped to
`Ok(())`, after which the process exits with status 0; a selection connects
and the process exits with the client's exit code. -/
def main_no_args_exit (ui : List PickerHost → Except String Host)
    (allHosts : List Host) (recent : List (String × String))
    (connectExit : Host → Int) : Int :=
  match run_picker ui allHosts recent with
  | Except.ok host => connectExit host
  | Except.error _ => 0

/-! ## Theorems: C7 and C10 (picker filtering) -/

theorem mem_filter_enum_map (phs : List PickerHost) (p : PickerHost → Bool) (i : Nat) :
    i ∈ (phs.enum.filter (fun q => p q.2)).map Prod.fst
      ↔ ∃ ph, phs[i]? = some ph ∧ p ph = true := by
  constructor
  · intro h
    rcases List.mem_map.mp h with ⟨q, hq, hfst⟩
    rcases List.mem_filter.mp hq with ⟨hqm, hpq⟩
    have hget := List.mem_enum_iff_getElem?.mp hqm
    exact ⟨q.2, by rw [← hfst]; exact hget, hpq⟩
  · rintro ⟨ph, hget, hp⟩
    exact List.mem_map.mpr
      ⟨(i, ph), List.mem_filter.mpr ⟨List.mem_enum_iff_getElem?.mpr hget, hp⟩, rfl⟩

theorem optAny_iff (o : Option String) (f : String → Bool) :
    o.any f = true ↔ ∃ x, o = some x ∧ f x = true := by
  cases o <;> simp

/-- C7: the picker filter returns every index for the empty query; for a
query starting with `#`, exactly the indices of hosts having some tag that
contains the query remainder case-insensitively; and otherwise exactly the
indices of hosts whose alias, hostname, user or some tag contains the query
case-insensitively. -/
theorem filter_hosts_spec (phs : List PickerHost) (query : String) :
    (query = "" → filter_hosts phs query = List.range phs.length)
    ∧ (∀ tagq, query ≠ "" → lcs query = '#' :: tagq →
        ∀ i, i ∈ filter_hosts phs query
          ↔ ∃ ph, phs[i]? = some ph
              ∧ ∃ t ∈ ph.host.tags, subListOf tagq (lcs t) = true)
    ∧ (query ≠ "" → (lcs query).head? ≠ some '#' →
        ∀ i, i ∈ filter_hosts phs query
          ↔ ∃ ph, phs[i]? = some ph
              ∧ (subListOf (lcs query) (lcs ph.host.«alias») = true
                 ∨ (∃ hn, ph.host.hostname = some hn
                      ∧ subListOf (lcs query) (lcs hn) = true)
                 ∨ (∃ u, ph.host.user = some u ∧ subListOf (lcs query) (lcs u) = true)
                 ∨ ∃ t ∈ ph.host.tags, subListOf (lcs query) (lcs t) = true)) := by
  refine ⟨?_, ?_, ?_⟩
  · intro h
    simp [filter_hosts, h]
  · intro tagq hne hq i
    have hbranch : filter_hosts phs query
        = (phs.enum.filter (fun p => tagMatches p.2 tagq)).map Prod.fst := by
      unfold filter_hosts
      rw [if_neg hne, hq]
      rfl
    rw [hbranch]
    refine Iff.trans (mem_filter_enum_map phs (fun x => tagMatches x tagq) i) ?_
    unfold tagMatches
    simp only [List.any_eq_true]
  · intro hne hq i
    have hbranch : filter_hosts phs query
        = (phs.enum.filter (fun p => fieldMatches p.2 (lcs query))).map Prod.fst := by
      unfold filter_hosts
      rw [if_neg hne]
      show (if (lcs query).head? = some '#' then _ else _) = _
      rw [if_neg hq]
    rw [hbranch]
    refine Iff.trans (mem_filter_enum_map phs (fun x => fieldMatches x (lcs query)) i) ?_
    unfold fieldMatches
    simp only [Bool.or_eq_true, List.any_eq_true, optAny_iff, or_assoc]

/-- A host used in concrete picker checks: alias `web`, one tag `db`. -/
def phEx : PickerHost :=
  { host := { «alias» := "web", hostname := some "w.example", user := some "deploy",
              port := none, identity_file := none, tags := ["db"],
              source := HostSource.HostsToml },
    last_connected := none }

/-- An untagged host used in concrete picker checks. -/
def phNoTag : PickerHost :=
  { host := { «alias» := "plain", hostname := none, user := none, port := none,
              identity_file := none, tags := [], source := HostSource.SshConfig },
    last_connected := none }

/-- Witness for `filter_hosts_spec`: query `#db` keeps the `db`-tagged host
and drops the untagged one. -/
theorem filter_hosts_spec_witness :
    0 ∈ filter_hosts [phEx, phNoTag] "#db"
    ∧ ¬ 1 ∈ filter_hosts [phEx, phNoTag] "#db"
    ∧ filter_hosts [phEx, phNoTag] "" = [0, 1] := by
  refine ⟨?_, ?_, ?_⟩
  · exact ((filter_hosts_spec [phEx, phNoTag] "#db").2.1 ['d', 'b'] (by decide) (by decide)
      0).mpr ⟨phEx, rfl, "db", by decide, by decide⟩
  · intro hmem
    rcases (((filter_hosts_spec [phEx, phNoTag] "#db").2.1 ['d', 'b'] (by decide) (by decide)
      1).mp hmem) with ⟨ph, hph, t, hmemt, hsub⟩
    have hphn : phNoTag = ph := by simpa using hph
    subst hphn
    simp [phNoTag] at hmemt
  · exact (filter_hosts_spec [phEx, phNoTag] "").1 rfl

/-- C10: for every host list and query, the index list returned by the
filter is a subsequence of `range (length)`: its entries are strictly
increasing and in range, so the filtered view is an order-preserving
subsequence of the grouped host list. -/
theorem filter_hosts_indices (phs : List PickerHost) (query : String) :
    (filter_hosts phs query).Sublist (List.range phs.length)
    ∧ List.Pairwise (fun i j => i < j) (filter_hosts phs query)
    ∧ ∀ i ∈ filter_hosts phs query, i < phs.length := by
  have hsub : (filter_hosts phs query).Sublist (List.range phs.length) := by
    unfold filter_hosts
    split
    · exact List.Sublist.refl _
    · show List.Sublist (if (lcs query).head? = some '#' then _ else _) _
      split
      · have h1 := List.Sublist.map Prod.fst
          (List.filter_sublist (p := fun p => tagMatches p.2 (lcs query).tail) phs.enum)
        rw [List.enum_map_fst] at h1
        exact h1
      · have h1 := List.Sublist.map Prod.fst
          (List.filter_sublist (p := fun p => fieldMatches p.2 (lcs query)) phs.enum)
        rw [List.enum_map_fst] at h1
        exact h1
  refine ⟨hsub, List.Pairwise.sublist hsub (List.pairwise_lt_range phs.length), ?_⟩
  intro i hi
  exact List.mem_range.mp (hsub.subset hi)

/-- Witness for `filter_hosts_indices`: the membership bound applied at a
concrete index of a concrete filter run. -/
theorem filter_hosts_indices_witness :
    (filter_hosts [phEx, phNoTag] "#db").Sublist (List.range 2)
    ∧ 0 < 2 := by
  exact ⟨(filter_hosts_indices [phEx, phNoTag] "#db").1,
    (filter_hosts_indices [phEx, phNoTag] "#db").2.2 0 (by decide)⟩

/-! ## Theorems: C8 (picker grouping order) -/

theorem cmpStr_eq_lt (a b : String) : cmpStr a b = Ordering.lt ↔ a < b := by
  unfold cmpStr
  split_ifs with h1 h2
  · simp [h1]
  · simp [h2, lt_irrefl]
  · simp [h1]

theorem cmpStr_eq_eq (a b : String) : cmpStr a b = Ordering.eq ↔ a = b := by
  unfold cmpStr
  split_ifs with h1 h2
  · simp [ne_of_lt h1]
  · simp [h2]
  · simp [h2]

theorem cmpStr_eq_gt (a b : String) : cmpStr a b = Ordering.gt ↔ b < a := by
  unfold cmpStr
  split_ifs with h1 h2
  · simp [lt_asymm h1]
  · simp [h2, lt_irrefl]
  · constructor
    · intro _
      rcases lt_trichotomy a b with h | h | h
      · exact absurd h h1
      · exact absurd h h2
      · exact h
    · intro _
      rfl

theorem pickerLe_iff (a b : PickerHost) :
    pickerLe a b ↔ groupOf a < groupOf b ∨ (groupOf a = groupOf b ∧ innerLe a b) := by
  unfold pickerLe cmpPicker
  cases hg : cmpStr (groupOf a) (groupOf b) with
  | lt =>
    have h := (cmpStr_eq_lt _ _).mp hg
    simp [h]
  | eq =>
    have heq := (cmpStr_eq_eq _ _).mp hg
    have hnlt : ¬ groupOf a < groupOf b := by rw [heq]; exact lt_irrefl _
    cases hac : a.last_connected with
    | none =>
      cases hbc : b.last_connected with
      | none =>
        simp only [innerLe, hac, hbc, hnlt, heq, false_or, true_and]
        rw [Ne, cmpStr_eq_gt, not_lt]
        simp [lt_irrefl]
      | some bts =>
        simp [innerLe, hac, hbc, hnlt, heq]
    | some ats =>
      cases hbc : b.last_connected with
      | none =>
        simp [innerLe, hac, hbc, hnlt, heq]
      | some bts =>
        simp only [innerLe, hac, hbc, hnlt, heq, false_or, true_and]
        rw [Ne, cmpStr_eq_gt, not_lt]
        simp [lt_irrefl]
  | gt =>
    have h := (cmpStr_eq_gt _ _).mp hg
    have h1 : ¬ groupOf a < groupOf b := lt_asymm h
    have h2 : groupOf a ≠ groupOf b := (ne_of_lt h).symm
    simp [h1, h2]

theorem innerLe_total (a b : PickerHost) : innerLe a b ∨ innerLe b a := by
  unfold innerLe
  rcases a with ⟨ah, alc⟩
  rcases b with ⟨bh, blc⟩
  cases alc with
  | none =>
    cases blc with
    | none => exact le_total _ _
    | some bts => exact Or.inr trivial
  | some ats =>
    cases blc with
    | none => exact Or.inl trivial
    | some bts => exact le_total _ _

theorem innerLe_trans (a b c : PickerHost) (hab : innerLe a b) (hbc : innerLe b c) :
    innerLe a c := by
  unfold innerLe at hab hbc ⊢
  rcases a with ⟨ah, alc⟩
  rcases b with ⟨bh, blc⟩
  rcases c with ⟨ch, clc⟩
  cases alc <;> cases blc <;> cases clc <;> simp_all <;>
    first
      | exact le_trans hab hbc
      | exact le_trans hbc hab

instance : IsTotal PickerHost pickerLe := ⟨by
  intro a b
  rw [pickerLe_iff, pickerLe_iff]
  rcases lt_trichotomy (groupOf a) (groupOf b) with h | h | h
  · exact Or.inl (Or.inl h)
  · rcases innerLe_total a b with hi | hi
    · exact Or.inl (Or.inr ⟨h, hi⟩)
    · exact Or.inr (Or.inr ⟨h.symm, hi⟩)
  · exact Or.inr (Or.inl h)⟩

instance : IsTrans PickerHost pickerLe := ⟨by
  intro a b c hab hbc
  rw [pickerLe_iff] at hab hbc ⊢
  rcases hab with h1 | ⟨h1, hi1⟩
  · rcases hbc with h2 | ⟨h2, hi2⟩
    · exact Or.inl (lt_trans h1 h2)
    · exact Or.inl (h2 ▸ h1)
  · rcases hbc with h2 | ⟨h2, hi2⟩
    · exact Or.inl (h1 ▸ h2)
    · exact Or.inr ⟨h1.trans h2, innerLe_trans a b c hi1 hi2⟩⟩

theorem withinOrd_of_innerLe (a b : PickerHost) (h : innerLe a b) : withinOrd a b = true := by
  unfold innerLe at h
  unfold withinOrd
  rcases a with ⟨ah, alc⟩
  rcases b with ⟨bh, blc⟩
  cases alc <;> cases blc <;> simp_all

theorem pickerLe_claimOrd (x y : PickerHost)
    (_hx : ∀ t, x.host.tags.head? = some t → t < "￿")
    (hy : ∀ t, y.host.tags.head? = some t → t < "￿")
    (h : pickerLe x y) : claimOrd x y = true := by
  rw [pickerLe_iff] at h
  unfold claimOrd
  cases hxt : x.host.tags.head? with
  | some ta =>
    cases hyt : y.host.tags.head? with
    | some tb =>
      have hga : groupOf x = ta := by simp [groupOf, hxt]
      have hgb : groupOf y = tb := by simp [groupOf, hyt]
      rcases h with h | ⟨heq, hin⟩
      · rw [hga, hgb] at h
        simp [h]
      · rw [hga, hgb] at heq
        subst heq
        simp only [lt_irrefl, if_false, if_pos rfl]
        exact withinOrd_of_innerLe x y hin
    | none => simp
  | none =>
    cases hyt : y.host.tags.head? with
    | some tb =>
      have hga : groupOf x = "￿" := by simp [groupOf, hxt]
      have hgb : groupOf y = tb := by simp [groupOf, hyt]
      have htb := hy tb hyt
      rcases h with h | ⟨heq, hin⟩
      · rw [hga, hgb] at h
        exact absurd h (lt_asymm htb)
      · rw [hga, hgb] at heq
        exact absurd heq.symm (ne_of_lt htb)
    | none =>
      rcases h with h | ⟨heq, hin⟩
      · have hga : groupOf x = "￿" := by simp [groupOf, hxt]
        have hgb : groupOf y = "￿" := by simp [groupOf, hyt]
        rw [hga, hgb] at h
        exact absurd h (lt_irrefl _)
      · exact withinOrd_of_innerLe x y hin

/-- C8 (amended: the grouping claim holds provided every first tag is
lexicographically below the untagged sentinel `"￿"` (U+FFFF); a first tag at
or above U+FFFF ties with or exceeds the sentinel and then untagged items do
not sort last, see the counterexample): the sorted picker list is a
permutation of its input, ordered primarily by first tag value
alphabetically with every untagged item after every tagged one, and within a
group most-recent-first, recency ahead of none, alphabetical alias among the
recency-less. -/
theorem sortPicker_spec (phs : List PickerHost)
    (htags : ∀ ph ∈ phs, ∀ t, ph.host.tags.head? = some t → t < "￿") :
    (sortPicker phs).Perm phs
    ∧ List.Pairwise (fun a b => claimOrd a b = true) (sortPicker phs) := by
  refine ⟨List.perm_insertionSort pickerLe phs, ?_⟩
  have hs : List.Pairwise pickerLe (sortPicker phs) :=
    List.sorted_insertionSort pickerLe phs
  refine List.Pairwise.imp_of_mem ?_ hs
  intro x y hx hy hxy
  exact pickerLe_claimOrd x y
    (htags x ((List.mem_insertionSort pickerLe).mp hx))
    (htags y ((List.mem_insertionSort pickerLe).mp hy)) hxy

/-- A host whose single tag starts at the untagged sentinel value. -/
def cexTagged : PickerHost :=
  { host := { «alias» := "tagged", hostname := none, user := none, port := none,
              identity_file := none, tags := ["￿￿"], source := HostSource.HostsToml },
    last_connected := none }

/-- Counterexample to C8 as stated: sorting a tagged host whose first tag is
`"￿￿"` together with an untagged host puts the untagged host first, so the
untagged item is not ordered after every tagged item. -/
theorem sortPicker_claim_counterexample :
    ¬ List.Pairwise (fun a b => claimOrd a b = true)
        (sortPicker [cexTagged, phNoTag]) := by
  decide

/-- Witness for `sortPicker_spec` at a concrete two-host list. -/
theorem sortPicker_spec_witness :
    (sortPicker [phEx, phNoTag]).Perm [phEx, phNoTag]
    ∧ List.Pairwise (fun a b => claimOrd a b = true) (sortPicker [phEx, phNoTag]) := by
  refine sortPicker_spec [phEx, phNoTag] ?_
  intro ph hph t ht
  rcases List.mem_cons.mp hph with rfl | hph
  · have ht' : t = "db" := by simpa [phEx] using ht.symm
    subst ht'
    decide
  · rcases List.mem_cons.mp hph with rfl | hph
    · simp [phNoTag] at ht
    · cases hph

/-! ## Theorems: C9 (scroll window) -/

theorem adjustScroll_bounds (row visRows offset : Nat) (h : 0 < visRows) :
    adjustScroll row visRows offset ≤ row
    ∧ row < adjustScroll row visRows offset + visRows := by
  unfold adjustScroll
  split_ifs with h1 h2 <;> omega

/-- C9 (amended: the window invariant requires a positive visible height,
i.e. a terminal of more than the two reserved rows; with `termHeight ≤ 2`
the strict upper bound is violated, see the counterexample): after every
sequence of up/down transitions, the frame computed next places the
selected item's render row (group-header rows counted) inside the scroll
window: `offset ≤ row < offset + visible_height`. -/
theorem scroll_window_spec (phs : List PickerHost) (termHeight : Nat)
    (keys : List NavKey) (st0 : LoopState) (hvis : 0 < termHeight - 2) :
    (frameCompute phs termHeight (runNav phs termHeight keys st0)).offset
        ≤ (frameCompute phs termHeight (runNav phs termHeight keys st0)).row
    ∧ (frameCompute phs termHeight (runNav phs termHeight keys st0)).row
        < (frameCompute phs termHeight (runNav phs termHeight keys st0)).offset
          + (termHeight - 2) :=
  adjustScroll_bounds _ (termHeight - 2) _ hvis

/-- Counterexample to C9 as stated: in a two-row terminal the visible
height is zero and the selected row can never satisfy the strict upper
bound of the window invariant. -/
theorem scroll_window_counterexample :
    ¬ ((frameCompute [phNoTag] 2 (runNav [phNoTag] 2 [] ⟨"", 0, 0⟩)).row
        < (frameCompute [phNoTag] 2 (runNav [phNoTag] 2 [] ⟨"", 0, 0⟩)).offset
          + (2 - 2)) := by
  decide

/-- Witness for `scroll_window_spec`: one down-key in a ten-row terminal. -/
theorem scroll_window_spec_witness :
    (frameCompute [phEx, phNoTag] 10 (runNav [phEx, phNoTag] 10 [NavKey.down] ⟨"", 0, 0⟩)).offset
        ≤ (frameCompute [phEx, phNoTag] 10
            (runNav [phEx, phNoTag] 10 [NavKey.down] ⟨"", 0, 0⟩)).row
    ∧ (frameCompute [phEx, phNoTag] 10
          (runNav [phEx, phNoTag] 10 [NavKey.down] ⟨"", 0, 0⟩)).row
        < (frameCompute [phEx, phNoTag] 10
            (runNav [phEx, phNoTag] 10 [NavKey.down] ⟨"", 0, 0⟩)).offset + (10 - 2) :=
  scroll_window_spec [phEx, phNoTag] 10 [NavKey.down] ⟨"", 0, 0⟩ (by decide)

/-! ## Theorems: C5 (empty host list) -/

/-- C5 evaluated on the code: with an empty resolved host list `run_picker`
returns the no-hosts error before the terminal is touched, but the
no-argument `main` path maps every picker error to a clean exit, so the
process exits with status 0 — not non-zero — and the error message is never
printed.  This contradicts the claimed non-zero exit. -/
theorem picker_empty_exits_zero (ui : List PickerHost → Except String Host)
    (recent : List (String × String)) (connectExit : Host → Int) :
    run_picker ui [] recent
        = Except.error "no hosts found — add one with: oken host add <name> <user@host>"
    ∧ main_no_args_exit ui [] recent connectExit = 0 := by
  constructor <;> rfl
